import Mathlib

/-!
Verification development for the accordion notes builder
(`Accromium_builder.py`).  The Python program keeps a path-addressed tree
of notes (insertion-ordered dictionaries keyed by title), a set of locked
full paths, and converts free-form note text into bullet-normalized text
and HTML.  This file gives a shallow embedding of the relevant functions:

* text is modelled as `List Char`; lines are obtained by splitting on
  the newline character, exactly as `text.split("\n")` does;
* an insertion-ordered Python dictionary of children is modelled as an
  association list `List (String × Node)`; `dict[k] = v` updates the
  entry in place when the key is present and appends otherwise, `del`
  removes the entry, mirroring CPython's ordered-dict semantics;
* paths (`"A > B > C"`) are modelled as their segment lists
  `["A", "B", "C"]`, which is what the Python code immediately turns
  them into via `split(" > ")`;
* the lock set is a list of such segment lists with membership as the
  set-membership test of the source.

Every mutating GUI action becomes a pure function from the old state to
`Except OpError` of the new tree (the source shows a message box and
returns without mutating in every error branch, except `change_path`,
which may mutate and restore, and therefore returns the tree alongside
an optional error).
-/

namespace Accordion

/-! ## Character classes and text helpers (regex `^\s*(?:[-*+•]|(?:\d+\.))\s+`) -/

/-- The whitespace class `\s` of the bullet regex, and the class stripped
by Python's `str.strip()`, restricted to its ASCII members. -/
def isSpaceChar (c : Char) : Bool :=
  c = ' ' || c = '\t' || c = '\n' || c = '\r' || c = '\x0b' || c = '\x0c'

/-- The one-character bullet alternatives `[-*+•]` of `bullet_start_regex`. -/
def isBulletChar (c : Char) : Bool :=
  c = '-' || c = '*' || c = '+' || c = '•'

/-- The digit class `\d` of the regex (ASCII digits). -/
def isDigitChar (c : Char) : Bool :=
  '0' ≤ c && c ≤ '9'

/-- `l.dropWhile isSpaceChar`: leading-whitespace removal (left part of
`strip`, and the `\s*` of the regex). -/
def stripLeft (l : List Char) : List Char := l.dropWhile isSpaceChar

/-- Trailing-whitespace removal (right part of Python `strip`). -/
def stripRight : List Char → List Char
  | [] => []
  | c :: tl =>
    match stripRight tl with
    | [] => if isSpaceChar c then [] else [c]
    | r => c :: r

/-- Python `str.strip()`. -/
def stripChars (l : List Char) : List Char := stripRight (stripLeft l)

/-- Python `str.strip()` on `String` (used on titles read from the entry). -/
def stripString (s : String) : String := ⟨stripChars s.toList⟩

/-- `bullet_start_regex.match(ln)`: if the line matches
`^\s*(?:[-*+•]|(?:\d+\.))\s+`, return the remainder of the line after the
(greedy) match — which is what `bullet_start_regex.sub("", ln)` leaves —
else `none`. -/
def matchBulletStart (l : List Char) : Option (List Char) :=
  match l.dropWhile isSpaceChar with
  | [] => none
  | c :: tl =>
    if isBulletChar c then
      match tl with
      | d :: _ => if isSpaceChar d then some (tl.dropWhile isSpaceChar) else none
      | [] => none
    else if isDigitChar c then
      match tl.dropWhile isDigitChar with
      | '.' :: tl2 =>
        match tl2 with
        | d :: _ => if isSpaceChar d then some (tl2.dropWhile isSpaceChar) else none
        | [] => none
      | _ => none
    else none

/-- One iteration of the loop in `normalize_universal_bullets`: a matching
line is rewritten to `"• " + content` where
`content = bullet_start_regex.sub("", ln).strip()`; other lines pass
through unchanged. -/
def normalizeLine (ln : List Char) : List Char :=
  match matchBulletStart ln with
  | some rest => '•' :: ' ' :: stripChars rest
  | none => ln

/-- Python `text.split("\n")` (always returns at least one piece). -/
def splitNL : List Char → List (List Char)
  | [] => [[]]
  | c :: tl =>
    if c = '\n' then [] :: splitNL tl
    else
      match splitNL tl with
      | [] => [[c]]
      | l :: ls => (c :: l) :: ls

/-- Python `"\n".join(pieces)`. -/
def joinNL : List (List Char) → List Char
  | [] => []
  | [l] => l
  | l :: ls => l ++ '\n' :: joinNL ls

/-- `normalize_universal_bullets(text)`: split into lines, normalize each
line's leading bullet to `"• "`, join with newlines. -/
def normalize_universal_bullets (text : List Char) : List Char :=
  joinNL ((splitNL text).map normalizeLine)

/-! ## `content_to_html` and its block-level (markup-fragment) view -/

/-- `ln.startswith("• ")`. -/
def isBulletLine (ln : List Char) : Bool :=
  match ln with
  | '•' :: ' ' :: _ => true
  | _ => false

/-- `flush_list` of `content_to_html`: a non-empty pending bullet run
becomes `<ul>`, one `<li>…</li>` per item, `</ul>`. -/
def flushList (buf : List (List Char)) : List (List Char) :=
  if buf = [] then []
  else "<ul>".toList :: buf.map (fun item => "<li>".toList ++ item ++ "</li>".toList)
         ++ ["</ul>".toList]

/-- The line loop of `content_to_html`, carrying the `list_buffer`:
bullet lines accumulate (prefix `"• "` stripped and the item trimmed),
any other line flushes the pending run and, when non-blank after
trimming, becomes a `<p>…</p>`; the pending run is flushed at the end. -/
def htmlLoop : List (List Char) → List (List Char) → List (List Char)
  | [], buf => flushList buf
  | ln :: rest, buf =>
    if isBulletLine ln then htmlLoop rest (buf ++ [stripChars (ln.drop 2)])
    else
      flushList buf
        ++ (if stripChars ln = [] then [] else ["<p>".toList ++ stripChars ln ++ "</p>".toList])
        ++ htmlLoop rest []

/-- `content_to_html(content)`: strip the whole text; empty input gives
the empty document; otherwise run the line loop and join with newlines. -/
def content_to_html (content : List Char) : List Char :=
  let c := stripChars content
  if c = [] then [] else joinNL (htmlLoop (splitNL c) [])

/-- A typed markup block: the spec's `List(items)` / `Paragraph(text)`
fragments that `content_to_html` renders. -/
inductive Fragment where
  | listBlock (items : List (List Char)) : Fragment
  | para (text : List Char) : Fragment
  deriving DecidableEq

/-- The same scan as `htmlLoop`, emitting typed blocks instead of HTML
strings (the spec's `toMarkupFragments` block structure). -/
def fragLoop : List (List Char) → List (List Char) → List Fragment
  | [], buf => if buf = [] then [] else [.listBlock buf]
  | ln :: rest, buf =>
    if isBulletLine ln then fragLoop rest (buf ++ [stripChars (ln.drop 2)])
    else
      (if buf = [] then [] else [.listBlock buf])
        ++ (if stripChars ln = [] then [] else [.para (stripChars ln)])
        ++ fragLoop rest []

/-- Block-level view of `content_to_html`: the ordered markup fragments
produced from (normalized) content. -/
def toMarkupFragments (content : List Char) : List Fragment :=
  let c := stripChars content
  if c = [] then [] else fragLoop (splitNL c) []

/-- Rendering of one fragment into the HTML parts emitted by
`content_to_html`. -/
def renderFrag : Fragment → List (List Char)
  | .listBlock items =>
      "<ul>".toList :: items.map (fun item => "<li>".toList ++ item ++ "</li>".toList)
        ++ ["</ul>".toList]
  | .para t => ["<p>".toList ++ t ++ "</p>".toList]

/-! ## The tree of notes -/

/-- One note: `{"content": …, "image_path": …, "subtitles": {…}}`.
Content is text (`List Char`), the image path a plain string, and the
children an insertion-ordered association list keyed by title. -/
inductive Node : Type where
  | mk (content : List Char) (image_path : String) (subtitles : List (String × Node)) : Node

/-- A sibling collection (the root `accordion_data` or any `subtitles`). -/
abbrev Tree := List (String × Node)

def Node.content : Node → List Char
  | .mk c _ _ => c

def Node.image_path : Node → String
  | .mk _ i _ => i

def Node.subtitles : Node → Tree
  | .mk _ _ s => s

/-- A node with all fields empty (used only as an unreachable default for
lookups the source has already guaranteed to succeed). -/
def defaultNode : Node := .mk [] "" []

/-- `parent[k]` / `k in parent` on an ordered dict: first (unique) entry. -/
def lookupKey : Tree → String → Option Node
  | [], _ => none
  | (k, v) :: tl, key => if k = key then some v else lookupKey tl key

/-- `key in parent`. -/
def hasKey (t : Tree) (key : String) : Bool := (lookupKey t key).isSome

/-- `parent[key] = v` on an ordered dict: in-place update when the key is
present (its position is kept), append at the end otherwise. -/
def dictSet (t : Tree) (key : String) (v : Node) : Tree :=
  if hasKey t key then t.map fun p => if p.1 = key then (key, v) else p
  else t ++ [(key, v)]

/-- `del parent[key]` on an ordered dict (removing the unique entry). -/
def dictDel : Tree → String → Tree
  | [], _ => []
  | (k, v) :: tl, key => if k = key then tl else (k, v) :: dictDel tl key

/-- The errors the GUI actions report via message boxes, as typed results. -/
inductive OpError where
  | noSelection
  | locked (g : List String)
  | notFound
  | emptyTitle
  | duplicate
  | boundary
  | invalidPath
  | destParentNotFound
  | destDuplicate
  deriving DecidableEq

/-- Descend a chain of titles and return the sibling collection reached:
`getSubsAt t []` is the root collection, and each step follows
`parent[part]["subtitles"]` as `get_parent_dict_and_key` does. -/
def getSubsAt : Tree → List String → Option Tree
  | t, [] => some t
  | t, k :: rest =>
    match lookupKey t k with
    | some n => getSubsAt n.subtitles rest
    | none => none

/-- `get_item_data(path)`: parent collection of the last segment, then the
entry itself. -/
def findNode (t : Tree) (parts : List String) : Option Node :=
  match parts with
  | [] => none
  | _ => (getSubsAt t parts.dropLast).bind fun col => lookupKey col (parts.getLastD "")

/-- Apply `f` to the sibling collection reached by descending `chain`
(rebuilding the spine), failing with `nf` when a segment of the chain is
missing — the functional rendering of "resolve the parent dict by
reference, then mutate it". -/
def modifyAtChain (nf : OpError) : Tree → List String → (Tree → Except OpError Tree) →
    Except OpError Tree
  | t, [], f => f t
  | t, k :: rest, f =>
    match lookupKey t k with
    | none => .error nf
    | some n =>
      match modifyAtChain nf n.subtitles rest f with
      | .error e => .error e
      | .ok subs2 => .ok (dictSet t k (.mk n.content n.image_path subs2))

/-- Total variant of `modifyAtChain` used for the restore step of
`change_path` (the chain is known to resolve there; on a missing segment
the tree is returned unchanged). -/
def updateAtChain : Tree → List String → (Tree → Tree) → Tree
  | t, [], f => f t
  | t, k :: rest, f =>
    match lookupKey t k with
    | none => t
    | some n => dictSet t k (.mk n.content n.image_path (updateAtChain n.subtitles rest f))

/-! ## Locking -/

/-- The scan of `any_ancestor_locked`: candidates are the prefixes of the
path of length 1, 2, …, built by extending the accumulator one segment at
a time; the first candidate found in the lock set is returned. -/
def anyAncestorAux (locked : List (List String)) : List String → List String →
    Option (List String)
  | _, [] => none
  | acc, p :: rest =>
    let cand := acc ++ [p]
    if cand ∈ locked then some cand else anyAncestorAux locked cand rest

/-- `any_ancestor_locked(path_str)`: the first locked prefix (checked from
the root downward to the full path), or `none`. -/
def any_ancestor_locked (locked : List (List String)) (parts : List String) :
    Option (List String) :=
  anyAncestorAux locked [] parts

/-! ## GUI actions as pure operations -/

/-- `list.index` on the sibling key list (`siblings.index(item_key)`),
`none` when absent. -/
def indexOfKey : List String → String → Option Nat
  | [], _ => none
  | k :: tl, key => if k = key then some 0 else (indexOfKey tl key).map (· + 1)

/-- `keys[idx] = new_title` where `idx = keys.index(old)`: replace the
first occurrence of `old` by `new`. -/
def replaceFirst : List String → String → String → List String
  | [], _, _ => []
  | k :: tl, old, new => if k = old then new :: tl else k :: replaceFirst tl old new

/-- Rebuild a collection in a given key order, looking each key up in the
original collection (`parent_dict.clear()` followed by re-insertion of
`(k, parent_dict[k])` in order). -/
def rebuildByKeys (col : Tree) (keys : List String) : Tree :=
  keys.map fun k => (k, (lookupKey col k).getD defaultNode)

/-- The mutation `save_changes` applies to the parent collection of the
selected node: update content and image in place; on a title change,
rebuild the collection with the old key replaced at its original index
(`keys[idx] = new_title`, then re-insert `(k, parent_dict[k])` in that
key order with the renamed entry carrying the updated node). -/
def save_body (sel : List String) (title_input : String) (content_input : List Char)
    (selected_image : String) (parentCol : Tree) : Except OpError Tree :=
  let old_key := sel.getLastD ""
  match lookupKey parentCol old_key with
  | none => .error .notFound
  | some item =>
    let new_title := stripString title_input
    let new_content := normalize_universal_bullets (stripChars content_input)
    let new_image := if selected_image = "" then item.image_path else selected_image
    if new_title = "" then .error .emptyTitle
    else if new_title ≠ old_key ∧ hasKey parentCol new_title then .error .duplicate
    else
      let item2 : Node := .mk new_content new_image item.subtitles
      if new_title = old_key then .ok (dictSet parentCol old_key item2)
      else
        let keys := parentCol.map Prod.fst
        if old_key ∈ keys then
          .ok ((replaceFirst keys old_key new_title).map fun k =>
            if k = new_title then (new_title, item2)
            else (k, (lookupKey parentCol k).getD defaultNode))
        else .error .notFound

/-- `save_changes`: apply the editor draft (`title_input`, raw
`content_input`, `selected_image`) to the node selected by `sel`.
Renames rebuild the sibling collection with the target key replaced at
its original index.  When no image is selected (`selected_image = ""`)
the node's existing `image_path` is kept. -/
def save_changes (locked : List (List String)) (t : Tree) (sel : List String)
    (title_input : String) (content_input : List Char) (selected_image : String) :
    Except OpError Tree :=
  if sel = [] then .error .noSelection
  else
    match any_ancestor_locked locked sel with
    | some g => .error (.locked g)
    | none =>
      modifyAtChain .notFound t sel.dropLast
        (save_body sel title_input content_input selected_image)

/-- `del parent[key]` guarded by the membership test the source performs:
the shared removal step of `delete_item` and `change_path`. -/
def removeKey_body (key : String) (col : Tree) : Except OpError Tree :=
  if hasKey col key then .ok (dictDel col key) else .error .notFound

/-- `delete_item` (after the user confirms): remove the selected node and
its entire subtree from its parent's collection.  The lock set is not
touched by the source, so it does not appear in the result. -/
def delete_item (locked : List (List String)) (t : Tree) (sel : List String) :
    Except OpError Tree :=
  if sel = [] then .error .noSelection
  else
    match any_ancestor_locked locked sel with
    | some g => .error (.locked g)
    | none =>
      modifyAtChain .notFound t sel.dropLast (removeKey_body (sel.getLastD ""))

/-- Direction argument of `move_item`. -/
inductive Dir where
  | up
  | down
  deriving DecidableEq

/-- The reorder `move_item` performs on the parent collection: find the
selected key's index among the sibling keys, fail at a boundary, else pop
the key, insert it one position away, and rebuild the collection in the
new key order. -/
def move_body (sel : List String) (dir : Dir) (col : Tree) : Except OpError Tree :=
  let item_key := sel.getLastD ""
  let siblings := col.map Prod.fst
  match indexOfKey siblings item_key with
  | none => .error .notFound
  | some idx =>
    let go : Nat → Except OpError Tree := fun new_index =>
      .ok (rebuildByKeys col
        ((siblings.eraseIdx idx).insertIdx new_index (siblings.getD idx "")))
    match dir with
    | .up => if idx = 0 then .error .boundary else go (idx - 1)
    | .down => if idx = siblings.length - 1 then .error .boundary else go (idx + 1)

/-- `move_item(direction)`: swap the selected node with its adjacent
sibling (guarded by selection and lock checks). -/
def move_item (locked : List (List String)) (t : Tree) (sel : List String) (dir : Dir) :
    Except OpError Tree :=
  if sel = [] then .error .noSelection
  else
    match any_ancestor_locked locked sel with
    | some g => .error (.locked g)
    | none =>
      modifyAtChain .notFound t sel.dropLast (move_body sel dir)

/-- `add_subtitle`: insert a new child.  When the selection is governed by
a lock the insertion parent is redirected to the locked ancestor returned
by `any_ancestor_locked`; otherwise it is the selection itself.  Returns
the new tree and the full path of the created node. -/
def add_subtitle (locked : List (List String)) (t : Tree) (sel : List String)
    (title_input : String) (content_input : List Char) (selected_image : String) :
    Except OpError (Tree × List String) :=
  let title := stripString title_input
  if title = "" then .error .emptyTitle
  else if sel = [] then .error .noSelection
  else
    let parent_path := (any_ancestor_locked locked sel).getD sel
    match modifyAtChain .notFound t parent_path (fun subs =>
      if hasKey subs title then .error .duplicate
      else .ok (subs ++ [(title,
        .mk (normalize_universal_bullets (stripChars content_input)) selected_image [])])) with
    | .error e => .error e
    | .ok t2 => .ok (t2, parent_path ++ [title])

/-- The destination insertion of `change_path`: fail if the destination
key collides with an existing sibling, else append the moved node at the
end of the destination parent's collection. -/
def insertEnd_body (key : String) (item : Node) (col : Tree) : Except OpError Tree :=
  if hasKey col key then .error .destDuplicate else .ok (col ++ [(key, item)])

/-- `change_path`: move the selected node to `new_parts`.  The source is
removed first; if the destination parent chain does not resolve or the
destination key collides, the node is re-assigned into its original
parent collection (which, the key having been deleted, appends it at the
end) and the error is reported.  The (possibly mutated-and-restored)
tree is returned alongside the optional error, matching the in-place
mutation of the source. -/
def change_path (locked : List (List String)) (t : Tree) (sel : List String)
    (new_parts : List String) : Option OpError × Tree :=
  if sel = [] then (some .noSelection, t)
  else
    match any_ancestor_locked locked sel with
    | some g => (some (.locked g), t)
    | none =>
      if new_parts = [] then (some .invalidPath, t)
      else
        let srcChain := sel.dropLast
        let srcKey := sel.getLastD ""
        match findNode t sel, modifyAtChain .notFound t srcChain (removeKey_body srcKey) with
        | some item, .ok t1 =>
          let destChain := new_parts.dropLast
          let destKey := new_parts.getLastD ""
          match modifyAtChain .destParentNotFound t1 destChain
              (insertEnd_body destKey item) with
          | .ok t2 => (none, t2)
          | .error e => (some e, updateAtChain t1 srcChain fun col => col ++ [(srcKey, item)])
        | _, _ => (some .notFound, t)

/-! ## Concrete example data -/

/-- A leaf note with empty fields. -/
def leafN : Node := .mk [] "" []

/-- Three top-level siblings `A`, `B`, `C`. -/
def abcTree : Tree := [("A", leafN), ("B", leafN), ("C", leafN)]

/-- One top-level node `A` with a single child `B`. -/
def nestedAB : Tree := [("A", Node.mk [] "" [("B", leafN)])]

/-- One top-level node `P` with children `A`, `B`, `C`. -/
def nestedPABC : Tree := [("P", Node.mk [] "" [("A", leafN), ("B", leafN), ("C", leafN)])]

/-- One top-level node `A` carrying an image path. -/
def imgTree : Tree := [("A", Node.mk [] "pic.png" [])]

/-- `A` (with child `B`) next to a top-level `B`: relocating `A > B` to
the root collides with the existing `B`. -/
def dupTree : Tree := [("A", Node.mk [] "" [("B", leafN)]), ("B", leafN)]

/-! ## Association-list lemmas -/

@[simp] theorem lookupKey_nil (k : String) : lookupKey [] k = none := rfl

@[simp] theorem lookupKey_cons (k0 : String) (v0 : Node) (tl : Tree) (k : String) :
    lookupKey ((k0, v0) :: tl) k = if k0 = k then some v0 else lookupKey tl k := rfl

@[simp] theorem hasKey_nil (k : String) : hasKey [] k = false := rfl

theorem hasKey_cons (k0 : String) (v0 : Node) (tl : Tree) (k : String) :
    hasKey ((k0, v0) :: tl) k = if k0 = k then true else hasKey tl k := by
  simp [hasKey, apply_ite Option.isSome]

theorem hasKey_iff_mem (t : Tree) (k : String) :
    hasKey t k = true ↔ k ∈ t.map Prod.fst := by
  induction t with
  | nil => simp
  | cons hd tl ih =>
    obtain ⟨k0, v0⟩ := hd
    simp only [hasKey_cons, List.map_cons, List.mem_cons]
    by_cases h : k0 = k
    · simp [h]
    · simp [h, Ne.symm h, ih]

theorem lookupKey_append_left {t1 : Tree} {k : String} {v : Node} (t2 : Tree)
    (h : lookupKey t1 k = some v) : lookupKey (t1 ++ t2) k = some v := by
  induction t1 with
  | nil => simp at h
  | cons hd tl ih =>
    obtain ⟨k0, v0⟩ := hd
    by_cases hk : k0 = k <;> simp_all

theorem lookupKey_append_right {t1 : Tree} {k : String} (t2 : Tree)
    (h : hasKey t1 k = false) : lookupKey (t1 ++ t2) k = lookupKey t2 k := by
  induction t1 with
  | nil => simp
  | cons hd tl ih =>
    obtain ⟨k0, v0⟩ := hd
    by_cases hk : k0 = k <;> simp_all [hasKey_cons]

theorem lookupKey_of_mem {t : Tree} {k : String} {v : Node}
    (hmem : (k, v) ∈ t) (hnd : (t.map Prod.fst).Nodup) : lookupKey t k = some v := by
  induction t with
  | nil => simp at hmem
  | cons hd tl ih =>
    obtain ⟨k0, v0⟩ := hd
    simp only [List.map_cons, List.nodup_cons] at hnd
    rcases List.mem_cons.mp hmem with h | h
    · injection h with h1 h2
      simp [← h1, ← h2]
    · have hk0 : k0 ≠ k := by
        intro he; subst he
        exact hnd.1 (List.mem_map_of_mem Prod.fst h)
      simp [hk0, ih h hnd.2]

theorem lookupKey_dictSet_self (t : Tree) (k : String) (v : Node) :
    lookupKey (dictSet t k v) k = some v := by
  unfold dictSet
  by_cases h : hasKey t k
  · simp only [h, if_true]
    induction t with
    | nil => simp [hasKey] at h
    | cons hd tl ih =>
      obtain ⟨k0, v0⟩ := hd
      by_cases hk : k0 = k
      · subst hk; simp
      · simp only [hasKey_cons, if_neg hk] at h
        simpa [hk] using ih h
  · simp only [h, Bool.false_eq_true, if_false]
    rw [lookupKey_append_right _ (by simpa using h)]
    simp

theorem hasKey_dictDel_of_nodup {t : Tree} {k : String}
    (hnd : (t.map Prod.fst).Nodup) : hasKey (dictDel t k) k = false := by
  induction t with
  | nil => simp [dictDel]
  | cons hd tl ih =>
    obtain ⟨k0, v0⟩ := hd
    simp only [List.map_cons, List.nodup_cons] at hnd
    by_cases hk : k0 = k
    · subst hk
      simp only [dictDel, if_pos rfl]
      by_contra h
      have : k0 ∈ tl.map Prod.fst := (hasKey_iff_mem tl k0).mp (by simpa using h)
      exact hnd.1 this
    · simp [dictDel, hk, hasKey_cons, ih hnd.2]

/-- Rebuilding a segment of a collection by key lookup reproduces the
segment, provided the full collection has distinct keys. -/
theorem rebuild_segment {col seg : Tree} (d : Node)
    (hnd : (col.map Prod.fst).Nodup) (hsub : ∀ p ∈ seg, p ∈ col) :
    (seg.map Prod.fst).map (fun k => (k, (lookupKey col k).getD d)) = seg := by
  rw [List.map_map]
  have : ∀ p ∈ seg, ((fun k => (k, (lookupKey col k).getD d)) ∘ Prod.fst) p = id p := by
    intro p hp
    obtain ⟨k, v⟩ := p
    simp [lookupKey_of_mem (hsub _ hp) hnd]
  rw [List.map_congr_left this, List.map_id]

/-! ## Lemmas about chain descent and modification -/

theorem getSubsAt_append (t : Tree) (xs ys : List String) :
    getSubsAt t (xs ++ ys) = (getSubsAt t xs).bind fun c => getSubsAt c ys := by
  induction xs generalizing t with
  | nil => simp [getSubsAt]
  | cons k rest ih =>
    simp only [List.cons_append, getSubsAt]
    cases lookupKey t k with
    | none => simp
    | some n => simp [ih]

theorem modifyAtChain_ok (nf : OpError) {t c d : Tree} {p : List String}
    {f : Tree → Except OpError Tree}
    (h1 : getSubsAt t p = some c) (h2 : f c = .ok d) :
    ∃ u, modifyAtChain nf t p f = .ok u ∧ getSubsAt u p = some d := by
  induction p generalizing t with
  | nil =>
    simp only [getSubsAt, Option.some.injEq] at h1
    subst h1
    exact ⟨d, by simp [modifyAtChain, h2], by simp [getSubsAt]⟩
  | cons k rest ih =>
    simp only [getSubsAt] at h1
    cases hk : lookupKey t k with
    | none => simp [hk] at h1
    | some n =>
      rw [hk] at h1
      obtain ⟨subs2, hm, hg⟩ := ih h1
      refine ⟨dictSet t k (.mk n.content n.image_path subs2), ?_, ?_⟩
      · simp [modifyAtChain, hk, hm]
      · simp [getSubsAt, lookupKey_dictSet_self, Node.subtitles, hg]

theorem modifyAtChain_error (nf : OpError) {t c : Tree} {p : List String}
    {f : Tree → Except OpError Tree} {e : OpError}
    (h1 : getSubsAt t p = some c) (h2 : f c = .error e) :
    modifyAtChain nf t p f = .error e := by
  induction p generalizing t with
  | nil =>
    simp only [getSubsAt, Option.some.injEq] at h1
    subst h1
    simp [modifyAtChain, h2]
  | cons k rest ih =>
    simp only [getSubsAt] at h1
    cases hk : lookupKey t k with
    | none => simp [hk] at h1
    | some n =>
      rw [hk] at h1
      simp [modifyAtChain, hk, ih h1]

theorem modifyAtChain_of_getSubsAt_none (nf : OpError) {t : Tree} {chain : List String}
    (f : Tree → Except OpError Tree) (h : getSubsAt t chain = none) :
    modifyAtChain nf t chain f = .error nf := by
  induction chain generalizing t with
  | nil => simp [getSubsAt] at h
  | cons k rest ih =>
    simp only [getSubsAt] at h
    cases hk : lookupKey t k with
    | none => simp [modifyAtChain, hk]
    | some n =>
      rw [hk] at h
      simp [modifyAtChain, hk, ih h]

theorem getSubsAt_updateAtChain {t col : Tree} {chain : List String}
    (g : Tree → Tree) (h : getSubsAt t chain = some col) :
    getSubsAt (updateAtChain t chain g) chain = some (g col) := by
  induction chain generalizing t with
  | nil =>
    simp only [getSubsAt, Option.some.injEq] at h
    subst h; simp [updateAtChain, getSubsAt]
  | cons k rest ih =>
    simp only [getSubsAt] at h
    cases hk : lookupKey t k with
    | none => simp [hk] at h
    | some n =>
      rw [hk] at h
      obtain ⟨nc, ni, ns⟩ := n
      have h' : getSubsAt ns rest = some col := h
      simp [updateAtChain, hk, getSubsAt, lookupKey_dictSet_self, Node.subtitles, ih h']

/-! ## Lemmas for bullet normalization (claim C3) -/

theorem dropWhile_self (p : Char → Bool) (l : List Char) :
    (l.dropWhile p).dropWhile p = l.dropWhile p := by
  induction l with
  | nil => simp
  | cons c tl ih =>
    by_cases h : p c
    · simp [List.dropWhile_cons, h, ih]
    · simp [List.dropWhile_cons, h]

theorem mem_of_mem_dropWhile {p : Char → Bool} {l : List Char} {a : Char}
    (h : a ∈ l.dropWhile p) : a ∈ l := by
  induction l with
  | nil => simp at h
  | cons c tl ih =>
    by_cases hc : p c
    · rw [List.dropWhile_cons, if_pos hc] at h
      exact List.mem_cons_of_mem c (ih h)
    · rwa [List.dropWhile_cons, if_neg hc] at h

theorem stripRight_cons_eq (c : Char) (tl : List Char) :
    stripRight (c :: tl) =
      match stripRight tl with
      | [] => if isSpaceChar c then [] else [c]
      | r => c :: r := rfl

theorem stripRight_cons_shape (c : Char) (tl : List Char) :
    stripRight (c :: tl) = [] ∨ ∃ r, stripRight (c :: tl) = c :: r := by
  rw [stripRight_cons_eq]
  cases h : stripRight tl with
  | nil =>
    by_cases hc : isSpaceChar c
    · exact Or.inl (by simp [hc])
    · exact Or.inr ⟨[], by simp [hc]⟩
  | cons a r => exact Or.inr ⟨a :: r, rfl⟩

theorem mem_of_mem_stripRight {l : List Char} {a : Char} (h : a ∈ stripRight l) : a ∈ l := by
  induction l with
  | nil => simp [stripRight] at h
  | cons c tl ih =>
    rw [stripRight_cons_eq] at h
    cases hs : stripRight tl with
    | nil =>
      rw [hs] at h
      by_cases hc : isSpaceChar c
      · simp [hc] at h
      · simp [hc] at h
        simp [h]
    | cons b r =>
      rw [hs] at h
      rcases List.mem_cons.mp h with rfl | h2
      · exact List.mem_cons_self a tl
      · exact List.mem_cons_of_mem c (ih (hs ▸ h2))

theorem mem_of_mem_stripChars {l : List Char} {a : Char} (h : a ∈ stripChars l) : a ∈ l :=
  mem_of_mem_dropWhile (mem_of_mem_stripRight h)

theorem length_dropWhile_le (p : Char → Bool) (l : List Char) :
    (l.dropWhile p).length ≤ l.length := by
  induction l with
  | nil => simp
  | cons c tl ih =>
    by_cases h : p c
    · rw [List.dropWhile_cons, if_pos h]
      exact Nat.le_succ_of_le ih
    · rw [List.dropWhile_cons, if_neg h]

theorem stripLeft_stripLeft (l : List Char) : stripLeft (stripLeft l) = stripLeft l :=
  dropWhile_self _ _

theorem stripLeft_stripRight_of_fix {m : List Char} (hm : stripLeft m = m) :
    stripLeft (stripRight m) = stripRight m := by
  cases m with
  | nil => simp [stripRight, stripLeft]
  | cons c tl =>
    have hc : isSpaceChar c = false := by
      by_contra hcc
      simp only [Bool.not_eq_false] at hcc
      have h2 := hm
      simp only [stripLeft, List.dropWhile_cons, hcc, if_true] at h2
      have hlen := congrArg List.length h2
      have hle := length_dropWhile_le isSpaceChar tl
      simp at hlen
      omega
    rcases stripRight_cons_shape c tl with h | ⟨r, h⟩
    · simp [h, stripLeft]
    · simp [h, stripLeft, List.dropWhile_cons, hc]

theorem stripRight_stripRight (l : List Char) : stripRight (stripRight l) = stripRight l := by
  induction l with
  | nil => rfl
  | cons c tl ih =>
    cases h : stripRight tl with
    | nil =>
      rw [stripRight_cons_eq, h]
      by_cases hc : isSpaceChar c
      · simp [hc, stripRight]
      · simp only [hc, Bool.false_eq_true, if_false]
        rw [stripRight_cons_eq]
        simp [stripRight, hc]
    | cons a r =>
      rw [h] at ih
      rw [stripRight_cons_eq, h]
      rw [stripRight_cons_eq, ih]

theorem stripLeft_stripChars (l : List Char) : stripLeft (stripChars l) = stripChars l :=
  stripLeft_stripRight_of_fix (dropWhile_self _ _)

theorem stripChars_stripChars (l : List Char) : stripChars (stripChars l) = stripChars l := by
  show stripRight (stripLeft (stripRight (stripLeft l))) = stripRight (stripLeft l)
  rw [stripLeft_stripRight_of_fix (stripLeft_stripLeft l), stripRight_stripRight]

theorem matchBulletStart_norm {s : List Char} (hs : stripLeft s = s) :
    matchBulletStart ('•' :: ' ' :: s) = some s := by
  have h1 : isSpaceChar '•' = false := rfl
  have h2 : isBulletChar '•' = true := rfl
  have h3 : isSpaceChar ' ' = true := rfl
  unfold matchBulletStart
  rw [List.dropWhile_cons, h1]
  simp only [Bool.false_eq_true, if_false, h2, if_true]
  rw [List.dropWhile_cons, h3]
  simp only [if_true]
  exact congrArg some hs

theorem normalizeLine_normalizeLine (ln : List Char) :
    normalizeLine (normalizeLine ln) = normalizeLine ln := by
  cases h : matchBulletStart ln with
  | none => simp [normalizeLine, h]
  | some rest =>
    have h1 : normalizeLine ln = '•' :: ' ' :: stripChars rest := by simp [normalizeLine, h]
    rw [h1]
    unfold normalizeLine
    rw [matchBulletStart_norm (stripLeft_stripChars rest)]
    show '•' :: ' ' :: stripChars (stripChars rest) = _
    rw [stripChars_stripChars]

theorem matchBulletStart_subset {ln rest : List Char} (h : matchBulletStart ln = some rest) :
    ∀ a ∈ rest, a ∈ ln := by
  unfold matchBulletStart at h
  split at h
  · simp at h
  next c tl hd =>
    have htl : ∀ a ∈ tl, a ∈ ln := fun a ha =>
      mem_of_mem_dropWhile (p := isSpaceChar) (hd ▸ List.mem_cons_of_mem c ha)
    split at h
    · split at h
      next d tl' =>
        split at h
        · obtain rfl : (d :: tl').dropWhile isSpaceChar = rest := by simpa using h
          exact fun a ha => htl a (mem_of_mem_dropWhile ha)
        · simp at h
      next => simp at h
    · split at h
      · split at h
        next tl2 hdrop =>
          have htl2 : ∀ a ∈ tl2, a ∈ ln := fun a ha =>
            htl a (mem_of_mem_dropWhile (p := isDigitChar)
              (hdrop ▸ List.mem_cons_of_mem '.' ha))
          split at h
          next d tl3 =>
            split at h
            · obtain rfl : (d :: tl3).dropWhile isSpaceChar = rest := by simpa using h
              exact fun a ha => htl2 a (mem_of_mem_dropWhile ha)
            · simp at h
          next => simp at h
        next => simp at h
      · simp at h

theorem splitNL_ne_nil (l : List Char) : splitNL l ≠ [] := by
  induction l with
  | nil => simp [splitNL]
  | cons c tl ih =>
    by_cases h : c = '\n'
    · simp [splitNL, h]
    · simp only [splitNL, if_neg h]
      cases hs : splitNL tl with
      | nil => simp
      | cons a as => simp

theorem splitNL_no_newline {l p : List Char} (hp : p ∈ splitNL l) : '\n' ∉ p := by
  induction l generalizing p with
  | nil =>
    simp only [splitNL, List.mem_singleton] at hp
    subst hp; simp
  | cons c tl ih =>
    by_cases h : c = '\n'
    · rw [show splitNL (c :: tl) = [] :: splitNL tl by simp [splitNL, h]] at hp
      rcases List.mem_cons.mp hp with rfl | hp2
      · simp
      · exact ih hp2
    · simp only [splitNL, if_neg h] at hp
      cases hs : splitNL tl with
      | nil => exact absurd hs (splitNL_ne_nil tl)
      | cons a as =>
        rw [hs] at hp
        rcases List.mem_cons.mp hp with rfl | hp2
        · intro hmem
          rcases List.mem_cons.mp hmem with he | hmem2
          · exact h he.symm
          · exact ih (hs ▸ List.mem_cons_self a as) hmem2
        · exact ih (hs ▸ List.mem_cons_of_mem a hp2)

theorem splitNL_eq_single {l : List Char} (h : '\n' ∉ l) : splitNL l = [l] := by
  induction l with
  | nil => rfl
  | cons c tl ih =>
    have hc : c ≠ '\n' := fun he => h (he ▸ List.mem_cons_self c tl)
    have htl : '\n' ∉ tl := fun hm => h (List.mem_cons_of_mem c hm)
    simp [splitNL, hc, ih htl]

theorem splitNL_append_newline {l : List Char} (r : List Char) (h : '\n' ∉ l) :
    splitNL (l ++ '\n' :: r) = l :: splitNL r := by
  induction l with
  | nil => simp [splitNL]
  | cons c tl ih =>
    have hc : c ≠ '\n' := fun he => h (he ▸ List.mem_cons_self c tl)
    have htl : '\n' ∉ tl := fun hm => h (List.mem_cons_of_mem c hm)
    simp [splitNL, hc, ih htl]

theorem splitNL_joinNL {ls : List (List Char)} (hne : ls ≠ [])
    (h : ∀ p ∈ ls, '\n' ∉ p) : splitNL (joinNL ls) = ls := by
  induction ls with
  | nil => exact absurd rfl hne
  | cons l ls' ih =>
    cases ls' with
    | nil => simpa [joinNL] using splitNL_eq_single (h l (List.mem_cons_self _ _))
    | cons l2 ls'' =>
      rw [show joinNL (l :: l2 :: ls'') = l ++ '\n' :: joinNL (l2 :: ls'') from rfl,
        splitNL_append_newline _ (h l (List.mem_cons_self _ _)),
        ih (by simp) fun p hp => h p (List.mem_cons_of_mem _ hp)]

theorem normalizeLine_no_newline {ln : List Char} (h : '\n' ∉ ln) :
    '\n' ∉ normalizeLine ln := by
  cases hm : matchBulletStart ln with
  | none => simpa [normalizeLine, hm] using h
  | some rest =>
    simp only [normalizeLine, hm]
    intro hmem
    rcases List.mem_cons.mp hmem with he | hmem2
    · exact absurd he (by decide)
    rcases List.mem_cons.mp hmem2 with he | hmem3
    · exact absurd he (by decide)
    · exact h (matchBulletStart_subset hm _ (mem_of_mem_stripChars hmem3))

/-- **C3.** `normalize_universal_bullets` is idempotent: normalizing
already-normalized text changes nothing, for every input text. -/
theorem normalize_universal_bullets_idempotent (x : List Char) :
    normalize_universal_bullets (normalize_universal_bullets x)
      = normalize_universal_bullets x := by
  unfold normalize_universal_bullets
  have hne : (splitNL x).map normalizeLine ≠ [] := by
    simpa using splitNL_ne_nil x
  have hnl : ∀ p ∈ (splitNL x).map normalizeLine, '\n' ∉ p := by
    intro p hp
    obtain ⟨q, hq, rfl⟩ := List.mem_map.mp hp
    exact normalizeLine_no_newline (splitNL_no_newline hq)
  rw [splitNL_joinNL hne hnl, List.map_map,
    List.map_congr_left fun a _ => by
      simpa [Function.comp] using normalizeLine_normalizeLine a]

/-! ## The block-level view refines `content_to_html` (used for C8) -/

theorem flushList_eq (buf : List (List Char)) :
    flushList buf = if buf = [] then [] else renderFrag (.listBlock buf) := by
  by_cases h : buf = [] <;> simp [flushList, renderFrag, h]

theorem htmlLoop_eq_fragLoop (lines : List (List Char)) (buf : List (List Char)) :
    htmlLoop lines buf = (fragLoop lines buf).flatMap renderFrag := by
  induction lines generalizing buf with
  | nil =>
    by_cases h : buf = [] <;> simp [htmlLoop, fragLoop, flushList_eq, h]
  | cons ln rest ih =>
    by_cases hb : isBulletLine ln
    · simp [htmlLoop, fragLoop, hb, ih]
    · by_cases hs : stripChars ln = [] <;> by_cases hbf : buf = [] <;>
        simp [htmlLoop, fragLoop, hb, hs, hbf, ih, flushList_eq, renderFrag]

/-- `content_to_html` renders exactly the fragments of `toMarkupFragments`,
so the typed blocks are a faithful view of the HTML conversion. -/
theorem content_to_html_renders_fragments (c : List Char) :
    content_to_html c = joinNL ((toMarkupFragments c).flatMap renderFrag) := by
  unfold content_to_html toMarkupFragments
  by_cases h : stripChars c = [] <;> simp [h, htmlLoop_eq_fragLoop, joinNL]

/-! ## Claim theorems: C8, C1, C2 counterexample -/

/-- **C8.** The example text `"- buy milk\n* buy eggs\nNote: also bread"`
normalizes to `"• buy milk\n• buy eggs\nNote: also bread"`, whose markup
structure is exactly one list block with items `["buy milk", "buy eggs"]`
followed by exactly one paragraph block `"Note: also bread"` (and
`content_to_html` renders exactly those two blocks, by
`content_to_html_renders_fragments`). -/
theorem c8_bullet_example :
    normalize_universal_bullets "- buy milk\n* buy eggs\nNote: also bread".toList
        = "• buy milk\n• buy eggs\nNote: also bread".toList
      ∧ toMarkupFragments "• buy milk\n• buy eggs\nNote: also bread".toList
        = [.listBlock ["buy milk".toList, "buy eggs".toList],
            .para "Note: also bread".toList]
      ∧ content_to_html "• buy milk\n• buy eggs\nNote: also bread".toList
        = "<ul>\n<li>buy milk</li>\n<li>buy eggs</li>\n</ul>\n<p>Note: also bread</p>".toList :=
  ⟨by decide, by decide, by decide⟩

/-- **C1.** The code does not maintain the lock-set invariant: with the
path `"A > B"` locked, deleting `"A"` succeeds (only prefixes of the
deleted path are consulted by the lock guard), the subtree is removed, and
`delete_item` — which, like `change_path` and the rename branch of
`save_changes`, never touches `locked_paths` — leaves the lock set holding
the stale entry `"A > B"`, a path that no longer resolves to any node. -/
theorem c1_delete_leaves_stale_lock :
    delete_item [["A", "B"]] nestedAB ["A"] = .ok []
      ∧ ["A", "B"] ∈ [[("A" : String), "B"]]
      ∧ findNode ([] : Tree) ["A", "B"] = none :=
  ⟨rfl, by decide, rfl⟩

/-- **C2 counterexample.** Relocating the middle sibling `B` of
`[A, B, C]` to the missing destination `"X > B"` fails with
`destParentNotFound`, but the reinserted node is appended at the end of
its original sibling collection: the sibling order after the failed call
is `[A, C, B]`, not the original `[A, B, C]`, so the tree is not left
exactly as it was before the call. -/
theorem c2_failed_relocate_changes_order :
    (change_path [] abcTree ["B"] ["X", "B"]).1 = some .destParentNotFound
      ∧ ((change_path [] abcTree ["B"] ["X", "B"]).2).map Prod.fst = ["A", "C", "B"]
      ∧ abcTree.map Prod.fst = ["A", "B", "C"]
      ∧ ((change_path [] abcTree ["B"] ["X", "B"]).2).map Prod.fst ≠ abcTree.map Prod.fst :=
  ⟨rfl, by decide, by decide, by decide⟩

/-! ## Claim C5: the mutation guard -/

theorem anyAncestorAux_first {locked : List (List String)} :
    ∀ (rest acc : List String),
      (∃ n, n < rest.length ∧ (acc ++ rest.take (n + 1)) ∈ locked) →
      ∃ m, m < rest.length
        ∧ anyAncestorAux locked acc rest = some (acc ++ rest.take (m + 1))
        ∧ (acc ++ rest.take (m + 1)) ∈ locked
        ∧ ∀ j, j < m → (acc ++ rest.take (j + 1)) ∉ locked := by
  intro rest
  induction rest with
  | nil =>
    rintro acc ⟨n, hn, -⟩
    exact absurd hn (by simp)
  | cons p rest' ih =>
    rintro acc ⟨n, hn, hmem⟩
    by_cases hc : (acc ++ [p]) ∈ locked
    · refine ⟨0, by simp, ?_, by simpa using hc, fun j hj => absurd hj (Nat.not_lt_zero j)⟩
      simp [anyAncestorAux, hc]
    · have hn' : ∃ n', n' < rest'.length ∧ ((acc ++ [p]) ++ rest'.take (n' + 1)) ∈ locked := by
        cases n with
        | zero => exact absurd (by simpa using hmem) hc
        | succ n' =>
          refine ⟨n', by simpa using hn, ?_⟩
          simpa [List.take_succ_cons] using hmem
      obtain ⟨m', hm1, hm2, hm3, hm4⟩ := ih (acc ++ [p]) hn'
      refine ⟨m' + 1, by simpa using hm1, ?_, ?_, ?_⟩
      · rw [show anyAncestorAux locked acc (p :: rest') = anyAncestorAux locked (acc ++ [p]) rest'
            by simp [anyAncestorAux, hc], hm2]
        simp [List.take_succ_cons]
      · simpa [List.take_succ_cons] using hm3
      · intro j hj
        cases j with
        | zero => simpa using hc
        | succ j' =>
          have := hm4 j' (by omega)
          simpa [List.take_succ_cons] using this

/-- **C5.** If the selected path, or any ancestor of it, is in the lock
set, then the guard finds the outermost locked prefix `g` (no strictly
shorter prefix is locked), and each of save (edit), delete, move and
change-path (relocate) rejects the call with a `locked g` error without
producing any new tree (`change_path` returns the input tree unchanged
alongside the error); the lock set is never modified by these
operations. -/
theorem locked_guard_rejects (locked : List (List String)) (t : Tree)
    (sel : List String) (ti : String) (ci : List Char) (ii : String)
    (dir : Dir) (np : List String) (hsel : sel ≠ [])
    (h : ∃ n, n < sel.length ∧ sel.take (n + 1) ∈ locked) :
    ∃ g, any_ancestor_locked locked sel = some g
      ∧ g ∈ locked
      ∧ (∃ m, m < sel.length ∧ g = sel.take (m + 1)
          ∧ ∀ j, j < m → sel.take (j + 1) ∉ locked)
      ∧ save_changes locked t sel ti ci ii = .error (.locked g)
      ∧ delete_item locked t sel = .error (.locked g)
      ∧ move_item locked t sel dir = .error (.locked g)
      ∧ change_path locked t sel np = (some (.locked g), t) := by
  obtain ⟨m, hm1, hm2, hm3, hm4⟩ := anyAncestorAux_first sel [] (by simpa using h)
  have hA : any_ancestor_locked locked sel = some (sel.take (m + 1)) := by
    simpa [any_ancestor_locked] using hm2
  refine ⟨sel.take (m + 1), hA, by simpa using hm3,
    ⟨m, hm1, rfl, fun j hj => by simpa using hm4 j hj⟩, ?_, ?_, ?_, ?_⟩
  · simp [save_changes, hsel, hA]
  · simp [delete_item, hsel, hA]
  · simp [move_item, hsel, hA]
  · simp [change_path, hsel, hA]

/-- Witness for C5 at a concrete input: lock `"A"`, operate on `"A > B"`. -/
theorem locked_guard_rejects_witness :
    ∃ g, any_ancestor_locked [["A"]] ["A", "B"] = some g
      ∧ g ∈ [[("A" : String)]]
      ∧ (∃ m, m < (["A", "B"] : List String).length ∧ g = (["A", "B"] : List String).take (m + 1)
          ∧ ∀ j, j < m → (["A", "B"] : List String).take (j + 1) ∉ [[("A" : String)]])
      ∧ save_changes [["A"]] nestedAB ["A", "B"] "T" [] "" = .error (.locked g)
      ∧ delete_item [["A"]] nestedAB ["A", "B"] = .error (.locked g)
      ∧ move_item [["A"]] nestedAB ["A", "B"] .up = .error (.locked g)
      ∧ change_path [["A"]] nestedAB ["A", "B"] ["C"] = (some (.locked g), nestedAB) :=
  locked_guard_rejects [["A"]] nestedAB ["A", "B"] "T" [] "" .up ["C"]
    (by decide) ⟨0, by decide, by decide⟩

/-! ## Claim C6: insertion is redirected to the governing ancestor -/

/-- **C6.** Inserting a child with non-blank title `ti` under selection
`sel` creates it as the **last** child of the effective parent
`pp = governing locked ancestor if one exists, else sel` (the governing
ancestor being the outermost locked prefix, by the scan of
`any_ancestor_locked`), provided `pp` resolves and `ti` is not already a
child there: the result path is `pp ++ [ti]` and `pp`'s collection gains
exactly the new node at the end. -/
theorem add_subtitle_under_governing (locked : List (List String)) (t : Tree)
    (sel : List String) (title_input : String) (ci : List Char) (ii : String)
    (subs : Tree) (tis : String) (pps : List String)
    (hti0 : tis = stripString title_input)
    (hpp : pps = (any_ancestor_locked locked sel).getD sel)
    (hti : tis ≠ "") (hsel : sel ≠ [])
    (hsubs : getSubsAt t pps = some subs)
    (hdup : hasKey subs tis = false) :
    ∃ t', add_subtitle locked t sel title_input ci ii = .ok (t', pps ++ [tis])
      ∧ getSubsAt t' pps
        = some (subs ++ [(tis,
            .mk (normalize_universal_bullets (stripChars ci)) ii [])]) := by
  subst hti0 hpp
  obtain ⟨t', hm, hg⟩ := modifyAtChain_ok .notFound
    (d := subs ++ [(stripString title_input,
      .mk (normalize_universal_bullets (stripChars ci)) ii [])])
    (f := fun subs =>
      if hasKey subs (stripString title_input) then .error .duplicate
      else .ok (subs ++ [(stripString title_input,
        .mk (normalize_universal_bullets (stripChars ci)) ii [])]))
    hsubs (by simp [hdup])
  exact ⟨t', by simp [add_subtitle, hti, hsel, hm], hg⟩

/-- Witness for C6: with `"A"` locked, inserting `"N"` under selection
`"A > B"` creates it as the last child of `"A"`, not under `"A > B"`. -/
theorem add_subtitle_under_governing_witness :
    ∃ t', add_subtitle [["A"]] nestedAB ["A", "B"] "N" [] "" = .ok (t', ["A", "N"])
      ∧ getSubsAt t' ["A"] = some [("B", leafN), ("N", Node.mk [] "" [])] :=
  add_subtitle_under_governing [["A"]] nestedAB ["A", "B"] "N" [] ""
    [("B", leafN)] "N" ["A"] rfl rfl (by decide) (by decide) rfl rfl

/-! ## Claim C4: order-preserving rename -/

theorem mem_replaceFirst {l : List String} {o n a : String} (h : a ∈ replaceFirst l o n) :
    a ∈ l ∨ a = n := by
  induction l with
  | nil => simp [replaceFirst] at h
  | cons k tl ih =>
    by_cases hk : k = o
    · rw [replaceFirst, if_pos hk] at h
      rcases List.mem_cons.mp h with rfl | h2
      · exact Or.inr rfl
      · exact Or.inl (List.mem_cons_of_mem k h2)
    · rw [replaceFirst, if_neg hk] at h
      rcases List.mem_cons.mp h with rfl | h2
      · exact Or.inl (List.mem_cons_self a tl)
      · rcases ih h2 with h3 | h3
        · exact Or.inl (List.mem_cons_of_mem k h3)
        · exact Or.inr h3

/-- The rename rebuild of `save_changes` — replace the old key at its
index in the key list, then rebuild by lookup — equals replacing the
renamed entry in place and keeping every other entry untouched. -/
theorem rename_rebuild {col : Tree} {o n : String} {w : Node}
    (hnd : (col.map Prod.fst).Nodup) (hnew : n ∉ col.map Prod.fst) :
    ((replaceFirst (col.map Prod.fst) o n).map fun k =>
        if k = n then (n, w) else (k, (lookupKey col k).getD defaultNode))
      = col.map fun q => if q.1 = o then (n, w) else q := by
  induction col with
  | nil => rfl
  | cons hd tl ih =>
    obtain ⟨k0, v0⟩ := hd
    simp only [List.map_cons, List.nodup_cons] at hnd
    simp only [List.map_cons, List.mem_cons, not_or] at hnew
    obtain ⟨hn0, hntl⟩ := hnew
    by_cases hk : k0 = o
    · subst hk
      simp only [List.map_cons]
      rw [show replaceFirst (k0 :: tl.map Prod.fst) k0 n = n :: tl.map Prod.fst by
            simp [replaceFirst], List.map_cons]
      refine congrArg₂ List.cons (by simp) ?_
      have h1 : ∀ k ∈ tl.map Prod.fst,
          (if k = n then (n, w) else (k, (lookupKey ((k0, v0) :: tl) k).getD defaultNode))
            = (k, (lookupKey tl k).getD defaultNode) := by
        intro k hkmem
        have hkn : ¬ k = n := fun he => hntl (he ▸ hkmem)
        have hko : ¬ k0 = k := fun he => hnd.1 (he ▸ hkmem)
        simp [hkn, hko]
      rw [List.map_congr_left h1]
      have h2 : ∀ q ∈ tl, (if (q : String × Node).1 = k0 then (n, w) else q) = q := by
        intro q hq
        have : ¬ q.1 = k0 := fun he => hnd.1 (he ▸ List.mem_map_of_mem Prod.fst hq)
        simp [this]
      rw [List.map_congr_left h2]
      exact (rebuild_segment defaultNode hnd.2 fun q hq => hq).trans (by simp)
    · simp only [List.map_cons, replaceFirst, if_neg hk]
      rw [show (if k0 = n then (n, w)
              else (k0, (lookupKey ((k0, v0) :: tl) k0).getD defaultNode)) = (k0, v0)
          by simp [show ¬ k0 = n from fun he => hn0 he.symm]]
      congr 1
      have h1 : ∀ k ∈ replaceFirst (tl.map Prod.fst) o n,
          (if k = n then (n, w) else (k, (lookupKey ((k0, v0) :: tl) k).getD defaultNode))
            = (if k = n then (n, w) else (k, (lookupKey tl k).getD defaultNode)) := by
        intro k hkmem
        have hk0k : ¬ k0 = k := by
          rcases mem_replaceFirst hkmem with h2 | rfl
          · exact fun he => hnd.1 (he ▸ h2)
          · exact fun he => hn0 he.symm
        by_cases hkn : k = n <;> simp [hkn, hk0k]
      rw [List.map_congr_left h1, ih hnd.2 hntl]

/-- **C4.** A successful rename through `save_changes` rebuilds the
sibling collection as the pointwise replacement of the renamed entry:
the node that is the k-th child stays the k-th child (now under the new
title, with the saved content/image and its original subtree), and every
other sibling is exactly unchanged, order included. -/
theorem save_rename_preserves_order (locked : List (List String)) (t : Tree)
    (sel : List String) (title_input : String) (ci : List Char) (ii : String)
    (col : Tree) (item : Node) (nt : String)
    (hnt : nt = stripString title_input)
    (hsel : sel ≠ [])
    (hlock : any_ancestor_locked locked sel = none)
    (hcol : getSubsAt t sel.dropLast = some col)
    (hnd : (col.map Prod.fst).Nodup)
    (hitem : lookupKey col (sel.getLastD "") = some item)
    (hne : nt ≠ "")
    (hnotmem : nt ∉ col.map Prod.fst) :
    ∃ u, save_changes locked t sel title_input ci ii = .ok u
      ∧ getSubsAt u sel.dropLast
        = some (col.map fun q =>
            if q.1 = sel.getLastD "" then
              (nt, Node.mk (normalize_universal_bullets (stripChars ci))
                (if ii = "" then item.image_path else ii) item.subtitles)
            else q) := by
  subst hnt
  set o := sel.getLastD "" with ho
  have hmemold : o ∈ col.map Prod.fst :=
    (hasKey_iff_mem col _).mp (by unfold hasKey; rw [hitem]; rfl)
  have hnto : ¬ stripString title_input = o :=
    fun he => hnotmem (he ▸ hmemold)
  have hkn : hasKey col (stripString title_input) = false :=
    Bool.eq_false_iff.mpr fun h => hnotmem ((hasKey_iff_mem _ _).mp h)
  have hf : save_body sel title_input ci ii col
      = .ok (col.map fun q =>
          if q.1 = o then
            (stripString title_input, Node.mk (normalize_universal_bullets (stripChars ci))
              (if ii = "" then item.image_path else ii) item.subtitles)
          else q) := by
    simp only [save_body]
    rw [← ho, hitem]
    simp [hne, hnto, hkn, hmemold, rename_rebuild hnd hnotmem]
  obtain ⟨u, hm, hg⟩ := modifyAtChain_ok .notFound hcol hf
  refine ⟨u, ?_, hg⟩
  simpa [save_changes, hsel, hlock] using hm

/-- Witness for C4: renaming the middle sibling `B` of `[A, B, C]` to
`B2` keeps it at index 1 and leaves `A` and `C` untouched. -/
theorem save_rename_preserves_order_witness :
    ∃ u, save_changes [] abcTree ["B"] "B2" [] "" = .ok u
      ∧ getSubsAt u [] = some [("A", leafN), ("B2", Node.mk [] "" []), ("C", leafN)] :=
  save_rename_preserves_order [] abcTree ["B"] "B2" [] "" abcTree leafN "B2"
    rfl (by decide) rfl rfl (by decide) rfl (by decide) (by decide)

/-! ## Claim C9: a save without a newly selected image keeps the image -/

theorem lookupKey_map_rename {col : Tree} {o n : String} {w : Node}
    (hnotmem : n ∉ col.map Prod.fst) (hmem : o ∈ col.map Prod.fst) :
    lookupKey (col.map fun q => if q.1 = o then (n, w) else q) n = some w := by
  induction col with
  | nil => simp at hmem
  | cons hd tl ih =>
    obtain ⟨k0, v0⟩ := hd
    simp only [List.map_cons, List.mem_cons, not_or] at hnotmem hmem
    obtain ⟨hn0, hntl⟩ := hnotmem
    by_cases hk : k0 = o
    · subst hk
      simp
    · have hmem' : o ∈ tl.map Prod.fst := by
        rcases hmem with he | h
        · exact absurd he.symm hk
        · exact h
      simp only [List.map_cons]
      rw [show (if ((k0, v0) : String × Node).1 = o then (n, w) else (k0, v0)) = (k0, v0)
            by simp [hk]]
      rw [lookupKey_cons, if_neg fun he => hn0 he.symm]
      exact ih hntl hmem'

/-- **C9.** A save in which no new image was selected (the selected image
path is empty) keeps the node's stored `image_path` — and its subtree —
unchanged, in both the plain-save and the rename case: a save can
replace an image only when one is explicitly selected, never clear it. -/
theorem save_keeps_image_when_none_selected (locked : List (List String)) (t : Tree)
    (sel : List String) (title_input : String) (ci : List Char)
    (col : Tree) (item : Node) (nt : String)
    (hnt : nt = stripString title_input)
    (hsel : sel ≠ [])
    (hlock : any_ancestor_locked locked sel = none)
    (hcol : getSubsAt t sel.dropLast = some col)
    (hnd : (col.map Prod.fst).Nodup)
    (hitem : lookupKey col (sel.getLastD "") = some item)
    (hne : nt ≠ "")
    (hok : nt = sel.getLastD "" ∨ nt ∉ col.map Prod.fst) :
    ∃ u d, save_changes locked t sel title_input ci "" = .ok u
      ∧ getSubsAt u sel.dropLast = some d
      ∧ ∃ v, lookupKey d nt = some v
          ∧ v.image_path = item.image_path ∧ v.subtitles = item.subtitles := by
  subst hnt
  set o := sel.getLastD "" with ho
  rcases hok with heq | hnotmem
  · have hf : save_body sel title_input ci "" col
        = .ok (dictSet col o (.mk (normalize_universal_bullets (stripChars ci))
            item.image_path item.subtitles)) := by
      simp only [save_body]
      rw [← ho, hitem]
      simp [heq, hne, show ¬ o = "" from fun he => hne (heq.trans he)]
    obtain ⟨u, hm, hg⟩ := modifyAtChain_ok .notFound hcol hf
    refine ⟨u, _, by simpa [save_changes, hsel, hlock] using hm, hg, ?_⟩
    rw [heq]
    exact ⟨_, lookupKey_dictSet_self col o _, rfl, rfl⟩
  · have hmemold : o ∈ col.map Prod.fst :=
      (hasKey_iff_mem col _).mp (by unfold hasKey; rw [hitem]; rfl)
    have hnto : ¬ stripString title_input = o :=
      fun he => hnotmem (he ▸ hmemold)
    have hkn : hasKey col (stripString title_input) = false :=
      Bool.eq_false_iff.mpr fun h => hnotmem ((hasKey_iff_mem _ _).mp h)
    have hf : save_body sel title_input ci "" col
        = .ok (col.map fun q =>
            if q.1 = o then
              (stripString title_input,
                Node.mk (normalize_universal_bullets (stripChars ci))
                  item.image_path item.subtitles)
            else q) := by
      simp only [save_body]
      rw [← ho, hitem]
      simp [hne, hnto, hkn, hmemold, rename_rebuild hnd hnotmem]
    obtain ⟨u, hm, hg⟩ := modifyAtChain_ok .notFound hcol hf
    exact ⟨u, _, by simpa [save_changes, hsel, hlock] using hm, hg,
      ⟨_, lookupKey_map_rename hnotmem hmemold, rfl, rfl⟩⟩

/-- Witness for C9: saving node `A` (image `pic.png`) with no image
selected keeps `pic.png`. -/
theorem save_keeps_image_when_none_selected_witness :
    ∃ u d, save_changes [] imgTree ["A"] "A" [] "" = .ok u
      ∧ getSubsAt u [] = some d
      ∧ ∃ v, lookupKey d "A" = some v
          ∧ v.image_path = "pic.png" ∧ v.subtitles = [] :=
  save_keeps_image_when_none_selected [] imgTree ["A"] "A" [] imgTree
    (Node.mk [] "pic.png" []) "A" rfl (by decide) rfl rfl (by decide) rfl
    (by decide) (Or.inl rfl)

/-! ## Claim C7: sibling moves -/

theorem indexOfKey_append_cons (l1 : List String) (k : String) (l2 : List String)
    (h : k ∉ l1) : indexOfKey (l1 ++ k :: l2) k = some l1.length := by
  induction l1 with
  | nil => simp [indexOfKey]
  | cons a tl ih =>
    have ha : ¬ a = k := fun he => h (he ▸ List.mem_cons_self a tl)
    have htl : k ∉ tl := fun hm => h (List.mem_cons_of_mem a hm)
    simp [indexOfKey, ha, ih htl]

theorem getD_append_len (l1 : List String) (x : String) (l2 : List String) (d : String) :
    (l1 ++ x :: l2).getD l1.length d = x := by
  induction l1 with
  | nil => rfl
  | cons a tl ih => simpa using ih

theorem eraseIdx_append_len (l1 : List String) (x : String) (l2 : List String) :
    (l1 ++ x :: l2).eraseIdx l1.length = l1 ++ l2 := by
  induction l1 with
  | nil => rfl
  | cons a tl ih => simp [List.eraseIdx, ih]

theorem insertIdx_append_len (l1 : List String) (x : String) (l2 : List String) :
    (l1 ++ l2).insertIdx l1.length x = l1 ++ x :: l2 := by
  induction l1 with
  | nil => rfl
  | cons a tl ih => simp [ih]

/-- Rebuilding the collection in the key order with two adjacent keys
exchanged swaps exactly those two entries and keeps every other entry. -/
theorem rebuild_swap {pre post : Tree} {k1 k2 : String} {v1 v2 : Node}
    (hnd : ((pre ++ (k1, v1) :: (k2, v2) :: post).map Prod.fst).Nodup) :
    rebuildByKeys (pre ++ (k1, v1) :: (k2, v2) :: post)
        (pre.map Prod.fst ++ k2 :: k1 :: post.map Prod.fst)
      = pre ++ (k2, v2) :: (k1, v1) :: post := by
  have h2 : lookupKey (pre ++ (k1, v1) :: (k2, v2) :: post) k2 = some v2 :=
    lookupKey_of_mem (by simp) hnd
  have h1 : lookupKey (pre ++ (k1, v1) :: (k2, v2) :: post) k1 = some v1 :=
    lookupKey_of_mem (by simp) hnd
  unfold rebuildByKeys
  rw [List.map_append, rebuild_segment defaultNode hnd fun q hq => List.mem_append_left _ hq,
    List.map_cons, List.map_cons, h1, h2,
    rebuild_segment defaultNode hnd fun q hq => by simp [hq]]
  simp

/-- **C7.** `move_item` on a resolvable, unlocked selection: moving the
first sibling up or the last sibling down fails with the boundary error
and changes nothing; otherwise the node trades positions with exactly its
adjacent sibling in the requested direction and all other siblings keep
their relative order (and their nodes). -/
theorem move_item_spec (locked : List (List String)) (t : Tree) (sel : List String)
    (col : Tree)
    (hsel : sel ≠ [])
    (hlock : any_ancestor_locked locked sel = none)
    (hcol : getSubsAt t sel.dropLast = some col)
    (hnd : (col.map Prod.fst).Nodup) :
    ((∀ k v rest2, col = (k, v) :: rest2 → sel.getLastD "" = k →
        move_item locked t sel .up = .error .boundary)
      ∧ (∀ pre k v, col = pre ++ [(k, v)] → sel.getLastD "" = k →
          move_item locked t sel .down = .error .boundary))
      ∧ (∀ pre k1 v1 k2 v2 post, col = pre ++ (k1, v1) :: (k2, v2) :: post →
          (sel.getLastD "" = k2 →
            ∃ u, move_item locked t sel .up = .ok u
              ∧ getSubsAt u sel.dropLast = some (pre ++ (k2, v2) :: (k1, v1) :: post))
          ∧ (sel.getLastD "" = k1 →
            ∃ u, move_item locked t sel .down = .ok u
              ∧ getSubsAt u sel.dropLast = some (pre ++ (k2, v2) :: (k1, v1) :: post))) := by
  refine ⟨⟨?_, ?_⟩, ?_⟩
  · intro k v rest2 hceq hlast
    subst hceq
    have hb : move_body sel .up ((k, v) :: rest2) = .error .boundary := by
      simp only [move_body]
      rw [hlast]
      simp [indexOfKey]
    simp [move_item, hsel, hlock, modifyAtChain_error .notFound hcol hb]
  · intro pre k v hceq hlast
    subst hceq
    have hkp : k ∉ pre.map Prod.fst := by
      have h0 : (pre.map Prod.fst ++ k :: ([] : List String)).Nodup := by
        simpa using hnd
      exact fun hm => (List.nodup_append.mp h0).2.2 hm (List.mem_cons_self _ _)
    have hb : move_body sel .down (pre ++ [(k, v)]) = .error .boundary := by
      simp only [move_body]
      rw [hlast]
      rw [show (pre ++ [(k, v)]).map Prod.fst = pre.map Prod.fst ++ k :: [] by simp]
      rw [indexOfKey_append_cons _ _ _ hkp]
      simp
    simp [move_item, hsel, hlock, modifyAtChain_error .notFound hcol hb]
  · intro pre k1 v1 k2 v2 post hceq
    subst hceq
    have hkeys : (pre ++ (k1, v1) :: (k2, v2) :: post).map Prod.fst
        = (pre.map Prod.fst ++ [k1]) ++ k2 :: post.map Prod.fst := by simp
    have hndk : ((pre.map Prod.fst ++ [k1]) ++ k2 :: post.map Prod.fst).Nodup := by
      rw [← hkeys]; exact hnd
    constructor
    · intro hlast
      have hk2 : k2 ∉ pre.map Prod.fst ++ [k1] :=
        fun hm => (List.nodup_append.mp hndk).2.2 hm (List.mem_cons_self _ _)
      have hred : move_body sel .up (pre ++ (k1, v1) :: (k2, v2) :: post)
          = (if (pre.map Prod.fst ++ [k1]).length = 0 then Except.error OpError.boundary
             else Except.ok (rebuildByKeys (pre ++ (k1, v1) :: (k2, v2) :: post)
               (List.insertIdx ((pre.map Prod.fst ++ [k1]).length - 1)
                 (((pre.map Prod.fst ++ [k1]) ++ k2 :: post.map Prod.fst).getD
                   (pre.map Prod.fst ++ [k1]).length "")
                 (((pre.map Prod.fst ++ [k1]) ++ k2 :: post.map Prod.fst).eraseIdx
                   (pre.map Prod.fst ++ [k1]).length)))) := by
        simp only [move_body]
        rw [hlast, hkeys, indexOfKey_append_cons _ _ _ hk2]
      have hb : move_body sel .up (pre ++ (k1, v1) :: (k2, v2) :: post)
          = .ok (pre ++ (k2, v2) :: (k1, v1) :: post) := by
        rw [hred, if_neg (by simp), getD_append_len, eraseIdx_append_len,
          show (pre.map Prod.fst ++ [k1]) ++ post.map Prod.fst
              = pre.map Prod.fst ++ k1 :: post.map Prod.fst by simp,
          show (pre.map Prod.fst ++ [k1]).length - 1 = (pre.map Prod.fst).length by simp,
          insertIdx_append_len, rebuild_swap hnd]
      obtain ⟨u, hm, hg⟩ := modifyAtChain_ok .notFound hcol hb
      exact ⟨u, by simp [move_item, hsel, hlock, hm], hg⟩
    · intro hlast
      have hk1 : k1 ∉ pre.map Prod.fst := by
        have h0 : (pre.map Prod.fst ++ k1 :: (k2 :: post.map Prod.fst)).Nodup := by
          simpa using hnd
        exact fun hm => (List.nodup_append.mp h0).2.2 hm (List.mem_cons_self _ _)
      have hred : move_body sel .down (pre ++ (k1, v1) :: (k2, v2) :: post)
          = (if (pre.map Prod.fst).length
                = (pre.map Prod.fst ++ k1 :: (k2 :: post.map Prod.fst)).length - 1 then
              Except.error OpError.boundary
             else Except.ok (rebuildByKeys (pre ++ (k1, v1) :: (k2, v2) :: post)
               (List.insertIdx ((pre.map Prod.fst).length + 1)
                 ((pre.map Prod.fst ++ k1 :: (k2 :: post.map Prod.fst)).getD
                   (pre.map Prod.fst).length "")
                 ((pre.map Prod.fst ++ k1 :: (k2 :: post.map Prod.fst)).eraseIdx
                   (pre.map Prod.fst).length)))) := by
        simp only [move_body]
        rw [hlast,
          show (pre ++ (k1, v1) :: (k2, v2) :: post).map Prod.fst
              = pre.map Prod.fst ++ k1 :: (k2 :: post.map Prod.fst) by simp,
          indexOfKey_append_cons _ _ _ hk1]
      have hb : move_body sel .down (pre ++ (k1, v1) :: (k2, v2) :: post)
          = .ok (pre ++ (k2, v2) :: (k1, v1) :: post) := by
        rw [hred, if_neg (by simp), getD_append_len, eraseIdx_append_len,
          show pre.map Prod.fst ++ k2 :: post.map Prod.fst
              = (pre.map Prod.fst ++ [k2]) ++ post.map Prod.fst by simp,
          show (pre.map Prod.fst).length + 1 = (pre.map Prod.fst ++ [k2]).length by simp,
          insertIdx_append_len,
          show (pre.map Prod.fst ++ [k2]) ++ k1 :: post.map Prod.fst
              = pre.map Prod.fst ++ k2 :: k1 :: post.map Prod.fst by simp,
          rebuild_swap hnd]
      obtain ⟨u, hm, hg⟩ := modifyAtChain_ok .notFound hcol hb
      exact ⟨u, by simp [move_item, hsel, hlock, hm], hg⟩

/-- Witness for C7: moving `B` up among `P`'s children `[A, B, C]` swaps
it with `A`, giving `[B, A, C]`. -/
theorem move_item_spec_witness :
    ∃ u, move_item [] nestedPABC ["P", "B"] .up = .ok u
      ∧ getSubsAt u ["P"] = some [("B", leafN), ("A", leafN), ("C", leafN)] :=
  ((move_item_spec [] nestedPABC ["P", "B"] [("A", leafN), ("B", leafN), ("C", leafN)]
      (by decide) rfl rfl (by decide)).2
    [] "A" leafN "B" leafN [("C", leafN)] rfl).1 rfl

/-! ## Claims C2 (amended) and C10: failed relocates -/

theorem dropLast_append_getLastD : ∀ {l : List String}, l ≠ [] →
    l.dropLast ++ [l.getLastD ""] = l
  | [], h => absurd rfl h
  | [_], _ => rfl
  | a :: b :: tl, _ => by
    have ih := dropLast_append_getLastD (l := b :: tl) (by simp)
    calc (a :: b :: tl).dropLast ++ [(a :: b :: tl).getLastD ""]
        = a :: ((b :: tl).dropLast ++ [(b :: tl).getLastD ""]) := rfl
      _ = a :: b :: tl := by rw [ih]

theorem findNode_eq_of_ne_nil {t : Tree} {sel : List String} (h : sel ≠ []) :
    findNode t sel
      = (getSubsAt t sel.dropLast).bind fun c => lookupKey c (sel.getLastD "") := by
  cases sel with
  | nil => exact absurd rfl h
  | cons a l => rfl

theorem lookupKey_dictDel_self {col : Tree} {k : String}
    (hnd : (col.map Prod.fst).Nodup) : lookupKey (dictDel col k) k = none := by
  have h := hasKey_dictDel_of_nodup (k := k) hnd
  unfold hasKey at h
  cases h2 : lookupKey (dictDel col k) k with
  | none => rfl
  | some v => rw [h2] at h; simp at h

/-- The restored parent collection resolves the moved key to the moved
node again (it was deleted, then appended at the end). -/
theorem lookupKey_restored {col : Tree} {k : String} {item : Node}
    (hnd : (col.map Prod.fst).Nodup) :
    lookupKey (dictDel col k ++ [(k, item)]) k = some item := by
  rw [lookupKey_append_right _ (hasKey_dictDel_of_nodup hnd)]
  simp

/-- **C2 (amended).** When `change_path` fails on a destination check
(`destParentNotFound` or `destDuplicate`), the removed node is re-added
under its original parent with content and subtree intact, but appended
at the **end** of the sibling collection rather than at its original
index: the parent collection after the failed call is exactly the
original minus the moved entry plus that entry at the end — so all other
siblings keep their relative order and contents, and the original path
resolves to the original node again, though the moved node's index is
not preserved unless it was already last. -/
theorem change_path_failed_restores (locked : List (List String)) (t : Tree)
    (sel np : List String) (col : Tree) (item : Node) (e : OpError)
    (hsel : sel ≠ [])
    (hcol : getSubsAt t sel.dropLast = some col)
    (hnd : (col.map Prod.fst).Nodup)
    (hitem : lookupKey col (sel.getLastD "") = some item)
    (hfail : (change_path locked t sel np).1 = some e)
    (he : e = .destParentNotFound ∨ e = .destDuplicate) :
    getSubsAt (change_path locked t sel np).2 sel.dropLast
        = some (dictDel col (sel.getLastD "") ++ [(sel.getLastD "", item)])
      ∧ findNode (change_path locked t sel np).2 sel = some item := by
  have hne : (∀ g, e ≠ .locked g) ∧ e ≠ .invalidPath := by
    rcases he with rfl | rfl <;> exact ⟨fun g => by simp, by simp⟩
  cases hA : any_ancestor_locked locked sel with
  | some g =>
    rw [show (change_path locked t sel np).1 = some (.locked g) by
      simp [change_path, hsel, hA]] at hfail
    exact absurd (Option.some.inj hfail).symm (hne.1 g)
  | none =>
    by_cases hnp : np = []
    · rw [show (change_path locked t sel np).1 = some .invalidPath by
        simp [change_path, hsel, hA, hnp]] at hfail
      exact absurd (Option.some.inj hfail).symm hne.2
    · have hfind : findNode t sel = some item := by
        rw [findNode_eq_of_ne_nil hsel, hcol]
        exact hitem
      have hdel : removeKey_body (sel.getLastD "") col
          = .ok (dictDel col (sel.getLastD "")) := by
        unfold removeKey_body hasKey
        rw [hitem]
        rfl
      obtain ⟨t1, hm1, hg1⟩ := modifyAtChain_ok .notFound hcol hdel
      have hcp : change_path locked t sel np
          = (match modifyAtChain .destParentNotFound t1 np.dropLast
                (insertEnd_body (np.getLastD "") item) with
             | .ok t2 => (none, t2)
             | .error e2 => (some e2,
                 updateAtChain t1 sel.dropLast fun c => c ++ [(sel.getLastD "", item)])) := by
        simp [change_path, hsel, hA, hnp, hfind, hm1, -List.getLastD_eq_getLast?]
      cases hd : modifyAtChain .destParentNotFound t1 np.dropLast
          (insertEnd_body (np.getLastD "") item) with
      | ok t2 => rw [hcp, hd] at hfail; simp at hfail
      | error e2 =>
        rw [hcp, hd]
        have hG := getSubsAt_updateAtChain
          (fun c => c ++ [(sel.getLastD "", item)]) hg1
        refine ⟨hG, ?_⟩
        rw [findNode_eq_of_ne_nil hsel]
        rw [show ((some e2, updateAtChain t1 sel.dropLast fun c =>
              c ++ [(sel.getLastD "", item)]) : Option OpError × Tree).2
            = updateAtChain t1 sel.dropLast fun c => c ++ [(sel.getLastD "", item)] from rfl,
          hG]
        exact lookupKey_restored hnd

/-- Witness for C2 (amended): relocating `A > B` to root path `B`
collides with the existing top-level `B`; the child is restored under
`A` and `A > B` resolves again. -/
theorem change_path_failed_restores_witness :
    getSubsAt (change_path [] dupTree ["A", "B"] ["B"]).2 ["A"]
        = some [("B", leafN)]
      ∧ findNode (change_path [] dupTree ["A", "B"] ["B"]).2 ["A", "B"] = some leafN :=
  change_path_failed_restores [] dupTree ["A", "B"] ["B"] [("B", leafN)] leafN
    .destDuplicate (by decide) rfl (by decide) rfl rfl (Or.inr rfl)

/-- **C10.** A relocate whose destination lies strictly inside the moved
node's own subtree (`new_parts = sel ++ rest`, `rest ≠ []`) fails with
`destParentNotFound` — the subtree is detached before the destination is
resolved, so the destination chain passes through the now-missing node —
and the node with its entire subtree is reinserted under its original
parent (at the end), so the original path resolves to the original node
and nothing is lost. -/
theorem relocate_into_own_subtree (locked : List (List String)) (t : Tree)
    (sel rest : List String) (col : Tree) (item : Node)
    (hsel : sel ≠ []) (hrest : rest ≠ [])
    (hlock : any_ancestor_locked locked sel = none)
    (hcol : getSubsAt t sel.dropLast = some col)
    (hnd : (col.map Prod.fst).Nodup)
    (hitem : lookupKey col (sel.getLastD "") = some item) :
    (change_path locked t sel (sel ++ rest)).1 = some .destParentNotFound
      ∧ getSubsAt (change_path locked t sel (sel ++ rest)).2 sel.dropLast
        = some (dictDel col (sel.getLastD "") ++ [(sel.getLastD "", item)])
      ∧ findNode (change_path locked t sel (sel ++ rest)).2 sel = some item := by
  have hnp : sel ++ rest ≠ [] := by simp [hsel]
  have hfind : findNode t sel = some item := by
    rw [findNode_eq_of_ne_nil hsel, hcol]
    exact hitem
  have hdel : removeKey_body (sel.getLastD "") col
      = .ok (dictDel col (sel.getLastD "")) := by
    unfold removeKey_body hasKey
    rw [hitem]
    rfl
  obtain ⟨t1, hm1, hg1⟩ := modifyAtChain_ok .notFound hcol hdel
  have hsub1 : getSubsAt t1 sel = none := by
    rw [← dropLast_append_getLastD hsel, getSubsAt_append, hg1]
    simp [getSubsAt, lookupKey_dictDel_self hnd]
  have hdnone : getSubsAt t1 ((sel ++ rest).dropLast) = none := by
    obtain ⟨b, tl, rfl⟩ : ∃ b tl, rest = b :: tl := by
      cases rest with
      | nil => exact absurd rfl hrest
      | cons b tl => exact ⟨b, tl, rfl⟩
    rw [List.dropLast_append_cons, getSubsAt_append, hsub1]
    rfl
  have hd := modifyAtChain_of_getSubsAt_none .destParentNotFound
    (insertEnd_body ((sel ++ rest).getLastD "") item) hdnone
  have hcp : change_path locked t sel (sel ++ rest)
      = (some .destParentNotFound,
         updateAtChain t1 sel.dropLast fun c => c ++ [(sel.getLastD "", item)]) := by
    simp [change_path, hsel, hlock, hnp, hfind, hm1, hd, -List.getLastD_eq_getLast?]
  rw [hcp]
  have hG := getSubsAt_updateAtChain (fun c => c ++ [(sel.getLastD "", item)]) hg1
  refine ⟨rfl, hG, ?_⟩
  rw [findNode_eq_of_ne_nil hsel]
  rw [show ((some OpError.destParentNotFound, updateAtChain t1 sel.dropLast fun c =>
        c ++ [(sel.getLastD "", item)]) : Option OpError × Tree).2
      = updateAtChain t1 sel.dropLast fun c => c ++ [(sel.getLastD "", item)] from rfl,
    hG]
  exact lookupKey_restored hnd

/-- Witness for C10: relocating `A` to `A > X` (inside its own subtree)
fails with `destParentNotFound` and `A` (with child `B`) is restored. -/
theorem relocate_into_own_subtree_witness :
    (change_path [] nestedAB ["A"] (["A"] ++ ["X"])).1 = some .destParentNotFound
      ∧ getSubsAt (change_path [] nestedAB ["A"] (["A"] ++ ["X"])).2 []
        = some [("A", Node.mk [] "" [("B", leafN)])]
      ∧ findNode (change_path [] nestedAB ["A"] (["A"] ++ ["X"])).2 ["A"]
        = some (Node.mk [] "" [("B", leafN)]) :=
  relocate_into_own_subtree [] nestedAB ["A"] ["X"] nestedAB
    (Node.mk [] "" [("B", leafN)]) (by decide) (by decide) rfl rfl (by decide) rfl

end Accordion
